import Mathlib

/-! The nanovision demo project: `MathUtils`, `Calculator`, `AdvancedCalculator`.

A shallow embedding of the C++ sources under `demo_projects/cpp/project/src`.

* The C++ `int` is a 32-bit two's complement integer.  Values are carried in `Int`
  and every arithmetic result is reduced by `wrap32`; `long long` results are
  reduced by `wrap64`.
* The C++ `double` is reached through the interface `CDouble`, which lists exactly
  the operations the sources use.  The instance on `ℚ` reads doubles as exact
  rationals.
* `throw` is an `Except.error`; a loop takes a step budget and yields `none` when the
  budget is exhausted before the loop is left.
-/

/-! ## Machine integers -/

/-- Smallest value of the C++ `int` type. -/
def INT_MIN : Int := -2147483648

/-- Largest value of the C++ `int` type. -/
def INT_MAX : Int := 2147483647

/-- The value an `int` operation stores: the exact result reduced modulo `2^32`
into the range `[INT_MIN, INT_MAX]`. -/
def wrap32 (x : Int) : Int := (x + 2147483648) % 4294967296 - 2147483648

/-- The value a `long long` operation stores: the exact result reduced modulo `2^64`
into the range `[-2^63, 2^63 - 1]`. -/
def wrap64 (x : Int) : Int :=
  (x + 9223372036854775808) % 18446744073709551616 - 9223372036854775808

/-! ## Exceptions -/

/-- The two exception classes the sources throw, with their `what()` text. -/
inductive Error where
  | invalid_argument (what : String)
  | runtime_error (what : String)
  deriving DecidableEq, Repr

deriving instance DecidableEq for Except

/-! ## `utils/math_utils.cpp` -/

namespace MathUtils

/-- The loop `for (int i = 2; i * i <= n; ++i) { if (n % i == 0) return false; }`
followed by `return true`, started at the loop head with counter `i`. -/
def is_primeLoop : Nat → Int → Int → Option Bool
  | 0, _, _ => none
  | fuel + 1, n, i =>
    if wrap32 (i * i) ≤ n then
      if Int.tmod n i = 0 then some false
      else is_primeLoop fuel n (wrap32 (i + 1))
    else some true

/-- Embedding of `bool is_prime(int n)`. -/
def is_prime (fuel : Nat) (n : Int) : Option Bool :=
  if n ≤ 1 then some false
  else is_primeLoop fuel n 2

/-- The loop `for (int i = 1; i <= n; ++i) { result *= i; }` followed by
`return result`, started at the loop head with counter `i`. -/
def factorialLoop : Nat → Int → Int → Int → Option Int
  | 0, _, _, _ => none
  | fuel + 1, n, i, result =>
    if i ≤ n then factorialLoop fuel n (wrap32 (i + 1)) (wrap64 (result * i))
    else some result

/-- Embedding of `long long factorial(int n)`. -/
def factorial (fuel : Nat) (n : Int) : Option (Except Error Int) :=
  if n < 0 then
    some (.error (.invalid_argument "Factorial is not defined for negative numbers."))
  else if n = 0 then some (.ok 1)
  else (factorialLoop fuel n 1 1).map .ok

end MathUtils

/-! ## The `double` interface -/

/-- The operations on `double` values that the sources use.  `eq` is `operator==`,
`ofSize` is `static_cast<double>` applied to a `std::size_t`. -/
class CDouble (F : Type) where
  zero : F
  one : F
  add : F → F → F
  mul : F → F → F
  div : F → F → F
  eq : F → F → Bool
  ofSize : Nat → F

/-- Doubles read as exact rationals: no rounding, no infinities, no NaN. -/
instance ratDouble : CDouble ℚ where
  zero := 0
  one := 1
  add a b := a + b
  mul a b := a * b
  div a b := a / b
  eq a b := decide (a = b)
  ofSize n := (n : ℚ)

/-! ### IEEE 754 binary64

The second reading of `double`: the binary64 format with round-to-nearest, ties to
even, which is what `double` arithmetic is on the platforms the project builds for. -/

/-- A binary64 value: NaN, an infinity, or the finite value `(-1)^neg * m * 2^e`.
The results of the operations below are in canonical form: `m < 2^53`,
`-1074 <= e <= 971`, and `2^52 <= m` unless `e = -1074`; zero is `m = 0`, `e = -1074`. -/
inductive Binary64 where
  | nan
  | inf (neg : Bool)
  | fin (neg : Bool) (m : Nat) (e : Int)
  deriving DecidableEq, Repr

namespace Binary64

/-- Number of binary digits of `n` (`0` for `n = 0`), given a budget of at least that
many steps. -/
def bitLength : Nat → Nat → Nat
  | 0, _ => 0
  | fuel + 1, n => if n = 0 then 0 else bitLength fuel (n / 2) + 1

/-- Rounding to nearest, ties to even, of the exact magnitude `M * 2^E` (plus, when
`sticky` is set, a positive amount below `2^E`, where `M` then has more than 54
binary digits), with sign `neg`. -/
def round (neg : Bool) (M : Nat) (E : Int) (sticky : Bool) : Binary64 :=
  if M = 0 then .fin neg 0 (-1074)
  else
    let bits : Int := (bitLength M M : Int)
    let e : Int := max (E + bits - 53) (-1074)
    let k : Nat := (e - E).toNat
    let q : Nat := M * 2 ^ (E - e).toNat / 2 ^ k
    let r : Nat := M % 2 ^ k
    let up : Bool :=
      decide (2 * r > 2 ^ k) || (decide (2 * r = 2 ^ k) && (sticky || decide (q % 2 = 1)))
    let m : Nat := if up then q + 1 else q
    let m' : Nat := if m = 2 ^ 53 then 2 ^ 52 else m
    let e' : Int := if m = 2 ^ 53 then e + 1 else e
    if e' > 971 then .inf neg else .fin neg m' e'

/-- The `double` product `a * b`. -/
def mul : Binary64 → Binary64 → Binary64
  | .nan, _ => .nan
  | _, .nan => .nan
  | .inf s, .inf t => .inf (xor s t)
  | .inf s, .fin t n _ => if n = 0 then .nan else .inf (xor s t)
  | .fin s m _, .inf t => if m = 0 then .nan else .inf (xor s t)
  | .fin s m e, .fin t n f => round (xor s t) (m * n) (e + f) false

/-- The `double` quotient `a / b`. -/
def div : Binary64 → Binary64 → Binary64
  | .nan, _ => .nan
  | _, .nan => .nan
  | .inf _, .inf _ => .nan
  | .inf s, .fin t _ _ => .inf (xor s t)
  | .fin s _ _, .inf t => .fin (xor s t) 0 (-1074)
  | .fin s m e, .fin t n f =>
    if n = 0 then (if m = 0 then .nan else .inf (xor s t))
    else round (xor s t) (m * 2 ^ 110 / n) (e - f - 110) (decide (m * 2 ^ 110 % n ≠ 0))

/-- The `double` sum `a + b`. -/
def add : Binary64 → Binary64 → Binary64
  | .nan, _ => .nan
  | _, .nan => .nan
  | .inf s, .inf t => if s = t then .inf s else .nan
  | .inf s, .fin _ _ _ => .inf s
  | .fin _ _ _, .inf t => .inf t
  | .fin s m e, .fin t n f =>
    let g : Int := min e f
    let a : Int := (if s then -1 else 1) * ((m * 2 ^ (e - g).toNat : Nat) : Int)
    let b : Int := (if t then -1 else 1) * ((n * 2 ^ (f - g).toNat : Nat) : Int)
    let c : Int := a + b
    if c = 0 then .fin (s && t) 0 (-1074)
    else round (decide (c < 0)) c.natAbs g false

/-- The `double` comparison `a == b`: NaN equals nothing, `-0.0 == 0.0`. -/
def eq : Binary64 → Binary64 → Bool
  | .nan, _ => false
  | _, .nan => false
  | .inf s, .inf t => s == t
  | .inf _, .fin _ _ _ => false
  | .fin _ _ _, .inf _ => false
  | .fin s m e, .fin t n f =>
    let g : Int := min e f
    (m == 0 && n == 0) || (s == t && m * 2 ^ (e - g).toNat == n * 2 ^ (f - g).toNat)

/-- The conversion `static_cast<double>(n)` of an unsigned integer. -/
def ofSize (n : Nat) : Binary64 := round false n 0 false

/-- The rational number a finite binary64 value denotes (`0` for NaN and the
infinities, which denote none). -/
def toRat : Binary64 → ℚ
  | .fin neg m e => (if neg then -1 else 1) * (m : ℚ) * (2 : ℚ) ^ e
  | _ => 0

end Binary64

/-- Doubles read as IEEE 754 binary64 values; `0.0` and `1.0` are the literals. -/
instance ieeeDouble : CDouble Binary64 where
  zero := .fin false 0 (-1074)
  one := .fin false 4503599627370496 (-52)
  add := Binary64.add
  mul := Binary64.mul
  div := Binary64.div
  eq := Binary64.eq
  ofSize := Binary64.ofSize

/-- The element types `T` that `Calculator::sum<T>` is instantiated at: `T{}` and
`operator+`. -/
class Numeric (T : Type) where
  zero : T
  add : T → T → T

/-- The instantiation `T = int`: `int{}` is `0` and `+` is 32-bit addition. -/
instance intNumeric : Numeric Int where
  zero := 0
  add a b := wrap32 (a + b)

/-- The instantiation `T = double`. -/
instance doubleNumeric {F : Type} [CDouble F] : Numeric F where
  zero := CDouble.zero
  add := CDouble.add

/-! ## `calculator.h`, `calculator.cpp` -/

namespace Calculator

/-- Embedding of `int Calculator::add(int a, int b)`. -/
def add (a b : Int) : Int := wrap32 (a + b)

/-- Embedding of `int Calculator::subtract(int a, int b)`. -/
def subtract (a b : Int) : Int := wrap32 (a - b)

/-- Embedding of `int Calculator::multiply(int a, int b)`. -/
def multiply (a b : Int) : Int := wrap32 (a * b)

/-- Embedding of `double Calculator::divide(double a, double b)`. -/
def divide {F : Type} [CDouble F] (a b : F) : Except Error F :=
  if CDouble.eq b (CDouble.zero : F) then
    .error (.invalid_argument "Division by zero is not allowed.")
  else .ok (CDouble.div a b)

/-- Embedding of `int Calculator::sign(int x)`. -/
def sign (x : Int) : Int :=
  if x > 0 then 1
  else if x < 0 then -1
  else 0

/-- Embedding of `template <typename T> T Calculator::sum(const std::vector<T>&)`;
`std::accumulate(first, last, init)` is the left fold of `+` from `init`. -/
def sum {T : Type} [Numeric T] (numbers : List T) : T :=
  if numbers.isEmpty then Numeric.zero
  else numbers.foldl Numeric.add Numeric.zero

end Calculator

/-! ## `advanced_calculator.cpp` -/

namespace AdvancedCalculator

/-- The loop `for (int i = 0; i < positive_exp; ++i) { result *= base; }`, started
at the loop head with counter `i`; it yields the final `result`. -/
def powerLoop {F : Type} [CDouble F] (base : F) (positive_exp : Int) : Nat → Int → F → Option F
  | 0, _, _ => none
  | fuel + 1, i, result =>
    if i < positive_exp then
      powerLoop base positive_exp fuel (wrap32 (i + 1)) (CDouble.mul result base)
    else some result

/-- Embedding of `double AdvancedCalculator::power(double base, int exp)`. -/
def power {F : Type} [CDouble F] (fuel : Nat) (base : F) (exp : Int) : Option (Except Error F) :=
  if exp = 0 then some (.ok CDouble.one)
  else
    let positive_exp := if exp > 0 then exp else wrap32 (-exp)
    match powerLoop base positive_exp fuel 0 CDouble.one with
    | none => none
    | some result =>
      if exp < 0 then
        if CDouble.eq result (CDouble.zero : F) then
          some (.error (.runtime_error "Division by zero in power calculation."))
        else some (.ok (CDouble.div CDouble.one result))
      else some (.ok result)

/-- Embedding of `double AdvancedCalculator::average(const std::vector<double>&)`. -/
def average {F : Type} [CDouble F] (numbers : List F) : Except Error F :=
  if numbers.isEmpty then .ok CDouble.zero
  else
    let sum : F := Calculator.sum numbers
    Calculator.divide sum (CDouble.ofSize numbers.length)

end AdvancedCalculator

/-! ## Facts about `wrap32` and `wrap64` -/

theorem wrap32_eq_self {x : Int} (h1 : -2147483648 ≤ x) (h2 : x ≤ 2147483647) :
    wrap32 x = x := by
  unfold wrap32; omega

theorem wrap32_le (x : Int) : wrap32 x ≤ 2147483647 := by
  unfold wrap32; omega

theorem wrap64_eq_self {x : Int} (h1 : -9223372036854775808 ≤ x)
    (h2 : x ≤ 9223372036854775807) : wrap64 x = x := by
  unfold wrap64; omega

theorem wrap64_mul_left (a b : Int) : wrap64 (wrap64 a * b) = wrap64 (a * b) := by
  have h : ∃ q : Int, wrap64 a = a + 18446744073709551616 * q := by
    refine ⟨-((a + 9223372036854775808) / 18446744073709551616), ?_⟩
    unfold wrap64; omega
  obtain ⟨q, hq⟩ := h
  rw [hq]
  unfold wrap64
  have e : (a + 18446744073709551616 * q) * b + 9223372036854775808
      = (a * b + 9223372036854775808) + 18446744073709551616 * (q * b) := by ring
  rw [e, Int.add_mul_emod_self_left]

/-! ## `MathUtils::is_prime` -/

/-- While the counter stays at or below 46340 its square fits an `int`, and the loop
decides whether `n` has a divisor other than `1` and `n`. -/
theorem is_primeLoop_small (n : Int) (hn1 : 1 < n) (hn : n ≤ 2147395599) :
    ∀ (fuel : Nat) (i : Int), 2 ≤ i → i ≤ 46340 → 46341 ≤ i + fuel →
      (∀ j : Int, 2 ≤ j → j < i → ¬ j ∣ n) →
      ∃ b, MathUtils.is_primeLoop fuel n i = some b ∧
        (b = true ↔ ∀ d : Int, 0 < d → d ∣ n → d = 1 ∨ d = n) := by
  intro fuel
  induction fuel with
  | zero => intro i _ h2 h3; omega
  | succ fuel ih =>
    intro i h1 h2 h3 hinv
    have hsq : wrap32 (i * i) = i * i := by
      apply wrap32_eq_self <;> nlinarith
    have hinc : wrap32 (i + 1) = i + 1 := by
      apply wrap32_eq_self <;> omega
    unfold MathUtils.is_primeLoop
    rw [hsq, hinc]
    by_cases hle : i * i ≤ n
    · rw [if_pos hle]
      by_cases hdiv : Int.tmod n i = 0
      · rw [if_pos hdiv]
        refine ⟨false, rfl, ?_⟩
        constructor
        · intro h; cases h
        · intro h
          exfalso
          have hd : i ∣ n := Int.dvd_iff_tmod_eq_zero.mpr hdiv
          rcases h i (by omega) hd with h | h
          · omega
          · subst h; nlinarith
      · rw [if_neg hdiv]
        have hi : i < 46340 := by nlinarith
        apply ih (i + 1) (by omega) (by omega) (by omega)
        intro j hj1 hj2
        by_cases hji : j = i
        · subst hji
          intro hd
          exact hdiv (Int.dvd_iff_tmod_eq_zero.mp hd)
        · exact hinv j hj1 (by omega)
    · rw [if_neg hle]
      refine ⟨true, rfl, ?_⟩
      constructor
      · intro _ d hd0 hdn
        by_contra hne
        push_neg at hne
        obtain ⟨e, he⟩ := hdn
        have he0 : 0 < e := by
          by_contra hneg
          push_neg at hneg
          nlinarith
        have he1 : e ≠ 1 := by
          intro h; subst h; apply hne.2; linarith
        have hd2 : 2 ≤ d := by have := hne.1; omega
        have he2 : 2 ≤ e := by omega
        by_cases hde : d ≤ e
        · have : d < i := by nlinarith
          exact hinv d hd2 this ⟨e, he⟩
        · have : e < i := by nlinarith
          exact hinv e he2 this ⟨d, by rw [he]; ring⟩
      · intro _; rfl

/-- A result the loop reached within some budget is also reached within any larger one. -/
theorem is_primeLoop_mono (n : Int) (b : Bool) :
    ∀ (fuel k : Nat) (i : Int), MathUtils.is_primeLoop fuel n i = some b →
      MathUtils.is_primeLoop (fuel + k) n i = some b := by
  intro fuel
  induction fuel with
  | zero => intro k i h; simp [MathUtils.is_primeLoop] at h
  | succ fuel ih =>
    intro k i h
    rw [Nat.add_right_comm]
    unfold MathUtils.is_primeLoop at h ⊢
    split_ifs at h ⊢ with h1 h2
    · exact h
    · exact ih k _ h
    · exact h

theorem is_prime_mono (n : Int) (b : Bool) (fuel k : Nat)
    (h : MathUtils.is_prime fuel n = some b) : MathUtils.is_prime (fuel + k) n = some b := by
  unfold MathUtils.is_prime at h ⊢
  split_ifs at h ⊢ with h1
  · exact h
  · exact is_primeLoop_mono n b fuel k 2 h

theorem is_prime_of_le (n : Int) (b : Bool) (f fuel : Nat) (hf : f ≤ fuel)
    (h : MathUtils.is_prime f n = some b) : MathUtils.is_prime fuel n = some b := by
  have := is_prime_mono n b f (fuel - f) h
  rwa [Nat.add_sub_cancel' hf] at this

/-- With `n = INT_MAX` the test `i * i <= n` never fails, so the loop is left only
through `return false`, which happens at `i = n` at the latest. -/
theorem is_primeLoop_int_max :
    ∀ (fuel : Nat) (i : Int), 2 ≤ i → i ≤ 2147483647 → 2147483648 ≤ i + fuel →
      MathUtils.is_primeLoop fuel 2147483647 i = some false := by
  intro fuel
  induction fuel with
  | zero => intro i _ h2 h3; omega
  | succ fuel ih =>
    intro i h1 h2 h3
    unfold MathUtils.is_primeLoop
    rw [if_pos (wrap32_le _)]
    by_cases hdiv : Int.tmod 2147483647 i = 0
    · rw [if_pos hdiv]
    · rw [if_neg hdiv]
      have hne : i ≠ 2147483647 := by
        intro h; subst h; exact hdiv (by decide)
      have hinc : wrap32 (i + 1) = i + 1 := by
        apply wrap32_eq_self <;> omega
      rw [hinc]
      exact ih (i + 1) (by omega) (by omega) (by omega)

theorem is_primeLoop_int_max_ne_true :
    ∀ (fuel : Nat) (i : Int), MathUtils.is_primeLoop fuel 2147483647 i ≠ some true := by
  intro fuel
  induction fuel with
  | zero => intro i; simp [MathUtils.is_primeLoop]
  | succ fuel ih =>
    intro i
    unfold MathUtils.is_primeLoop
    rw [if_pos (wrap32_le _)]
    split_ifs
    · simp
    · exact ih _

/-- The Mersenne number `2^31 - 1`, the largest `int`, is prime. -/
theorem int_max_prime : Nat.Prime 2147483647 := by
  have h : (mersenne 31).Prime := lucas_lehmer_sufficiency _ (by norm_num) (by norm_num)
  have e : mersenne 31 = 2147483647 := by norm_num [mersenne]
  rwa [e] at h

/-- C1, at the input `n = 2147483647`: no `i` with `2 <= i` and `i * i <= n` divides
`n`, so the claim promises `true`; the code never returns `true` there, and once the
counter has run up to `n` it returns `false`. -/
theorem is_prime_int_max_wrong :
    (¬ ∃ i : Int, 2 ≤ i ∧ i * i ≤ 2147483647 ∧ i ∣ 2147483647) ∧
    (∀ fuel : Nat, MathUtils.is_prime fuel 2147483647 ≠ some true) ∧
    MathUtils.is_prime 2147483646 2147483647 = some false := by
  refine ⟨?_, ?_, ?_⟩
  · rintro ⟨i, h1, h2, h3⟩
    have hnat : i.toNat ∣ 2147483647 := by
      have : ((i.toNat : Int)) ∣ ((2147483647 : Nat) : Int) := by
        rw [Int.toNat_of_nonneg (by omega)]; exact_mod_cast h3
      exact Int.natCast_dvd_natCast.mp this
    rcases (Nat.dvd_prime int_max_prime).mp hnat with h | h
    · omega
    · have : i = 2147483647 := by omega
      subst this; omega
  · intro fuel
    unfold MathUtils.is_prime
    rw [if_neg (by decide)]
    exact is_primeLoop_int_max_ne_true fuel 2
  · unfold MathUtils.is_prime
    rw [if_neg (by decide)]
    exact is_primeLoop_int_max 2147483646 2 (by decide) (by decide) (by decide)

/-- C2: for every `int` `n <= 2147395599` and every budget of at least 46339 loop
steps, `is_prime(n)` returns, and it returns `true` exactly when `n >= 2` and the only
positive divisors of `n` are `1` and `n`; it returns `false` for every `n <= 1`, `true`
for 2, 3 and 13, `false` for 4 and 15. -/
theorem is_prime_correct (n : Int) (_hlo : INT_MIN ≤ n) (hhi : n ≤ 2147395599)
    (fuel : Nat) (hfuel : 46339 ≤ fuel) :
    (∃ b, MathUtils.is_prime fuel n = some b ∧
      (b = true ↔ (2 ≤ n ∧ ∀ d : Int, 0 < d → d ∣ n → d = 1 ∨ d = n))) ∧
    (n ≤ 1 → MathUtils.is_prime fuel n = some false) ∧
    MathUtils.is_prime fuel 2 = some true ∧
    MathUtils.is_prime fuel 3 = some true ∧
    MathUtils.is_prime fuel 13 = some true ∧
    MathUtils.is_prime fuel 4 = some false ∧
    MathUtils.is_prime fuel 15 = some false := by
  refine ⟨?_, ?_, ?_, ?_, ?_, ?_, ?_⟩
  · by_cases h1 : n ≤ 1
    · refine ⟨false, by simp [MathUtils.is_prime, h1], ?_⟩
      constructor
      · intro h; cases h
      · intro h; omega
    · obtain ⟨b, hb, hiff⟩ := is_primeLoop_small n (by omega) hhi fuel 2 (by omega)
        (by omega) (by omega) (by intro j h2 h3; omega)
      refine ⟨b, by simp [MathUtils.is_prime, h1, hb], ?_⟩
      rw [hiff]
      constructor
      · intro h; exact ⟨by omega, h⟩
      · intro h; exact h.2
  · intro h1; simp [MathUtils.is_prime, h1]
  · exact is_prime_of_le 2 true 5 fuel (by omega) (by decide)
  · exact is_prime_of_le 3 true 5 fuel (by omega) (by decide)
  · exact is_prime_of_le 13 true 5 fuel (by omega) (by decide)
  · exact is_prime_of_le 4 false 5 fuel (by omega) (by decide)
  · exact is_prime_of_le 15 false 5 fuel (by omega) (by decide)

theorem is_prime_correct_witness :
    ∃ b, MathUtils.is_prime 46339 2147395599 = some b ∧
      (b = true ↔ (2 ≤ (2147395599 : Int) ∧
        ∀ d : Int, 0 < d → d ∣ (2147395599 : Int) → d = 1 ∨ d = 2147395599)) :=
  (is_prime_correct 2147395599 (by decide) (by decide) 46339 (by decide)).1

/-! ## `MathUtils::factorial` -/

/-- Loop invariant of `factorial`: entering the loop head with counter `k + 1` and
`result` holding `k!` reduced to 64 bits, the loop ends with `n!` reduced to 64 bits,
provided `n < INT_MAX` so that `++i` stays in range. -/
theorem factorialLoop_spec (n : Nat) (hn : (n : Int) < 2147483647) :
    ∀ (fuel k : Nat), k ≤ n → n + 2 ≤ k + 1 + fuel →
      MathUtils.factorialLoop fuel n (k + 1) (wrap64 (k.factorial : Int)) =
        some (wrap64 (n.factorial : Int)) := by
  intro fuel
  induction fuel with
  | zero => intro k h1 h2; omega
  | succ fuel ih =>
    intro k h1 h2
    unfold MathUtils.factorialLoop
    by_cases hle : ((k : Int) + 1) ≤ n
    · rw [if_pos hle]
      have hinc : wrap32 ((k : Int) + 1 + 1) = ((k + 1 : Nat) : Int) + 1 := by
        rw [wrap32_eq_self (by omega) (by omega)]; push_cast; ring
      have hres : wrap64 (wrap64 (k.factorial : Int) * ((k : Int) + 1)) =
          wrap64 (((k + 1).factorial : Nat) : Int) := by
        rw [wrap64_mul_left, Nat.factorial_succ]; push_cast; ring_nf
      rw [hinc, hres]
      exact ih (k + 1) (by omega) (by omega)
    · rw [if_neg hle]
      have : k = n := by omega
      rw [this]

/-- With an `int` argument `0 <= n < INT_MAX` and a budget of more than `n` loop steps,
`factorial(n)` returns `n!` reduced to 64 bits. -/
theorem factorial_eq_wrap (n : Nat) (hn : (n : Int) < 2147483647) (fuel : Nat)
    (hfuel : n < fuel) :
    MathUtils.factorial fuel n = some (.ok (wrap64 (n.factorial : Int))) := by
  unfold MathUtils.factorial
  rw [if_neg (by omega)]
  by_cases h0 : (n : Int) = 0
  · rw [if_pos h0]
    have : n = 0 := by omega
    subst this
    rfl
  · rw [if_neg h0]
    have h := factorialLoop_spec n hn fuel 0 (by omega) (by omega)
    have e1 : wrap64 ((Nat.factorial 0 : Nat) : Int) = 1 := by decide
    have e2 : (((0 : Nat) : Int) + 1) = 1 := by norm_num
    rw [e1, e2] at h
    rw [h]; rfl

/-- C3: for every `int` `n` with `0 <= n <= 20` and every budget of more than `n`
loop steps, `factorial(n)` returns exactly `n!`; in particular `factorial(0) = 1`,
`factorial(1) = 1` and `factorial(5) = 120`. -/
theorem factorial_exact (n : Int) (h0 : 0 ≤ n) (h20 : n ≤ 20) (fuel : Nat)
    (hfuel : n < fuel) :
    MathUtils.factorial fuel n = some (.ok (n.toNat.factorial : Int)) ∧
    MathUtils.factorial fuel 0 = some (.ok 1) ∧
    MathUtils.factorial (fuel + 1) 1 = some (.ok 1) ∧
    MathUtils.factorial (fuel + 5) 5 = some (.ok 120) := by
  have key : ∀ (m f : Nat), m ≤ 20 → m < f →
      MathUtils.factorial f m = some (.ok (m.factorial : Int)) := by
    intro m f hm hf
    rw [factorial_eq_wrap m (by omega) f hf]
    have hbound : m.factorial ≤ Nat.factorial 20 := Nat.factorial_le hm
    have h20v : Nat.factorial 20 = 2432902008176640000 := by decide
    rw [wrap64_eq_self (by omega) (by omega)]
  refine ⟨?_, ?_, ?_, ?_⟩
  · have := key n.toNat fuel (by omega) (by omega)
    rwa [Int.toNat_of_nonneg h0] at this
  · rfl
  · exact key 1 (fuel + 1) (by omega) (by omega)
  · exact key 5 (fuel + 5) (by omega) (by omega)

theorem factorial_exact_witness :
    MathUtils.factorial 21 20 = some (.ok ((20 : Int).toNat.factorial : Int)) :=
  (factorial_exact 20 (by decide) (by decide) 21 (by decide)).1

/-- C10: whatever the loop budget, `factorial(n)` ends in the `invalid_argument`
exception exactly when `n < 0`, and for `n >= 0` it ends in no exception at all. -/
theorem factorial_error_iff (fuel : Nat) (n : Int) :
    (MathUtils.factorial fuel n =
        some (.error (.invalid_argument "Factorial is not defined for negative numbers."))
      ↔ n < 0) ∧
    ((∃ e, MathUtils.factorial fuel n = some (.error e)) ↔ n < 0) := by
  unfold MathUtils.factorial
  by_cases hn : n < 0
  · simp [hn]
  · rw [if_neg hn]
    by_cases h0 : n = 0
    · simp [h0]
    · rw [if_neg h0]
      cases MathUtils.factorialLoop fuel n 1 1 <;> simp [hn]

/-! ## `AdvancedCalculator::power` -/

/-- The loop body does not run when the counter has reached `positive_exp`. -/
theorem powerLoop_done {F : Type} [CDouble F] (base : F) (p : Int) (fuel : Nat) (i : Int)
    (result : F) (h : p ≤ i) :
    AdvancedCalculator.powerLoop base p (fuel + 1) i result = some result := by
  unfold AdvancedCalculator.powerLoop
  rw [if_neg (by omega)]

/-- Entered at counter `i` with `0 <= i <= positive_exp`, the loop multiplies `result`
by `base` exactly `positive_exp - i` times. -/
theorem powerLoop_spec {F : Type} [CDouble F] (base : F) (p : Int) (hp : p ≤ 2147483647) :
    ∀ (fuel : Nat) (i : Int) (result : F), 0 ≤ i → i ≤ p → p - i < fuel →
      AdvancedCalculator.powerLoop base p fuel i result =
        some ((fun r : F => CDouble.mul r base)^[(p - i).toNat] result) := by
  intro fuel
  induction fuel with
  | zero => intro i result _ h2 h3; simp at h3; omega
  | succ fuel ih =>
    intro i result h1 h2 h3
    by_cases hlt : i < p
    · unfold AdvancedCalculator.powerLoop
      rw [if_pos hlt, wrap32_eq_self (by omega) (by omega),
        ih (i + 1) _ (by omega) (by omega) (by push_cast at h3; omega)]
      have e : (p - i).toNat = (p - (i + 1)).toNat + 1 := by omega
      rw [e, Function.iterate_succ_apply]
    · rw [powerLoop_done base p fuel i result (by omega)]
      have e : (p - i).toNat = 0 := by omega
      rw [e, Function.iterate_zero_apply]

/-- Over exact rationals, multiplying `1` by `base` `k` times gives `base ^ k`. -/
theorem iterate_mul_rat (base : ℚ) (k : Nat) :
    (fun r : ℚ => CDouble.mul r base)^[k] CDouble.one = base ^ k := by
  induction k with
  | zero => rfl
  | succ k ih =>
    rw [Function.iterate_succ_apply', ih, pow_succ]; rfl

/-- Value of `power` for a positive exponent, for any `double` arithmetic. -/
theorem power_of_pos {F : Type} [CDouble F] (base : F) (exp : Int) (h1 : 0 < exp)
    (h2 : exp ≤ 2147483647) (fuel : Nat) (hf : exp < fuel) :
    AdvancedCalculator.power fuel base exp =
      some (.ok ((fun r : F => CDouble.mul r base)^[exp.toNat] CDouble.one)) := by
  unfold AdvancedCalculator.power
  rw [if_neg (by omega)]
  simp only [gt_iff_lt, if_pos h1]
  rw [powerLoop_spec base exp h2 fuel 0 _ (by omega) (by omega) (by omega)]
  simp only [sub_zero]
  rw [if_neg (by omega)]

/-- Outcome of `power` for a negative exponent other than `INT_MIN`, for any `double`
arithmetic. -/
theorem power_of_neg {F : Type} [CDouble F] (base : F) (exp : Int) (h1 : exp < 0)
    (h2 : -2147483648 < exp) (fuel : Nat) (hf : -exp < fuel) :
    AdvancedCalculator.power fuel base exp =
      if CDouble.eq ((fun r : F => CDouble.mul r base)^[(-exp).toNat] CDouble.one)
          (CDouble.zero : F) then
        some (.error (.runtime_error "Division by zero in power calculation."))
      else
        some (.ok (CDouble.div CDouble.one
          ((fun r : F => CDouble.mul r base)^[(-exp).toNat] CDouble.one))) := by
  unfold AdvancedCalculator.power
  rw [if_neg (by omega)]
  simp only [gt_iff_lt, if_neg (show ¬ 0 < exp by omega)]
  rw [wrap32_eq_self (by omega) (by omega),
    powerLoop_spec base (-exp) (by omega) fuel 0 _ (by omega) (by omega) (by omega)]
  simp only [sub_zero]
  rw [if_pos h1]

/-- Outcome of `power` for the exponent `INT_MIN`, for any `double` arithmetic: `-exp`
is again `INT_MIN`, the loop body never runs, and `result` is still `1.0`. -/
theorem power_of_int_min {F : Type} [CDouble F] (base : F) (fuel : Nat) :
    AdvancedCalculator.power (fuel + 1) base (-2147483648) =
      if CDouble.eq (CDouble.one : F) (CDouble.zero : F) then
        some (.error (.runtime_error "Division by zero in power calculation."))
      else some (.ok (CDouble.div CDouble.one (CDouble.one : F))) := by
  unfold AdvancedCalculator.power
  rw [if_neg (by decide)]
  simp only [gt_iff_lt, if_neg (show ¬ (0 : Int) < -2147483648 by decide)]
  rw [powerLoop_done base _ fuel 0 _ (by decide)]
  simp only [if_pos (show (-2147483648 : Int) < 0 by decide)]

/-- C4, refuted as stated: in binary64 arithmetic `base = 2^-600` is not zero, yet
`base * base` underflows to `0.0`, so `power(base, -2)` ends in the `runtime_error`
for every budget of at least three loop steps. -/
theorem power_underflow_raises :
    CDouble.eq (Binary64.fin false 4503599627370496 (-652)) (CDouble.zero : Binary64) = false ∧
    ∀ fuel : Nat, 3 ≤ fuel →
      AdvancedCalculator.power fuel (Binary64.fin false 4503599627370496 (-652)) (-2) =
        some (.error (.runtime_error "Division by zero in power calculation.")) := by
  refine ⟨by decide!, ?_⟩
  intro fuel hf
  rw [power_of_neg _ (-2) (by decide) (by decide) fuel (by push_cast; omega)]
  rw [if_pos (by decide!)]

/-- C4, amended: for every `int` exponent other than `INT_MIN` and every budget of more
than `|exp|` loop steps, `power(base, exp)` ends in the `runtime_error` exactly when
`exp < 0` and the product of `-exp` factors `base` compares equal to `0.0`, and returns
a value in every other case; with doubles read as exact rationals the condition is
`base == 0` and `exp < 0`. -/
theorem power_error_iff (exp : Int) (hmin : INT_MIN < exp) (hmax : exp ≤ INT_MAX)
    (fuel : Nat) (hfuel : |exp| < fuel) :
    (∀ (F : Type) [CDouble F] (base : F),
      (AdvancedCalculator.power fuel base exp =
          some (.error (.runtime_error "Division by zero in power calculation.")) ↔
        (exp < 0 ∧ CDouble.eq ((fun r : F => CDouble.mul r base)^[(-exp).toNat] CDouble.one)
          (CDouble.zero : F) = true)) ∧
      ((∃ v, AdvancedCalculator.power fuel base exp = some (.ok v)) ↔
        ¬ (exp < 0 ∧ CDouble.eq ((fun r : F => CDouble.mul r base)^[(-exp).toNat] CDouble.one)
          (CDouble.zero : F) = true))) ∧
    (∀ base : ℚ,
      (AdvancedCalculator.power fuel base exp =
          some (.error (.runtime_error "Division by zero in power calculation.")) ↔
        (base = 0 ∧ exp < 0)) ∧
      ((∃ v, AdvancedCalculator.power fuel base exp = some (.ok v)) ↔
        ¬ (base = 0 ∧ exp < 0))) := by
  unfold INT_MIN at hmin
  unfold INT_MAX at hmax
  have gen : ∀ (F : Type) [CDouble F] (base : F),
      (AdvancedCalculator.power fuel base exp =
          some (.error (.runtime_error "Division by zero in power calculation.")) ↔
        (exp < 0 ∧ CDouble.eq ((fun r : F => CDouble.mul r base)^[(-exp).toNat] CDouble.one)
          (CDouble.zero : F) = true)) ∧
      ((∃ v, AdvancedCalculator.power fuel base exp = some (.ok v)) ↔
        ¬ (exp < 0 ∧ CDouble.eq ((fun r : F => CDouble.mul r base)^[(-exp).toNat] CDouble.one)
          (CDouble.zero : F) = true)) := by
    intro F _ base
    rcases lt_trichotomy exp 0 with hneg | hzero | hpos
    · rw [power_of_neg base exp hneg hmin fuel (by rw [abs_of_neg hneg] at hfuel; exact hfuel)]
      by_cases hz : CDouble.eq ((fun r : F => CDouble.mul r base)^[(-exp).toNat] CDouble.one)
          (CDouble.zero : F) = true
      · simp [hz, hneg]
      · simp [hz, hneg]
    · subst hzero
      simp [AdvancedCalculator.power]
    · rw [power_of_pos base exp hpos hmax fuel (by rw [abs_of_pos hpos] at hfuel; exact hfuel)]
      have : ¬ exp < 0 := by omega
      simp [this]
  refine ⟨gen, ?_⟩
  intro base
  have hq : (exp < 0 ∧ CDouble.eq ((fun r : ℚ => CDouble.mul r base)^[(-exp).toNat] CDouble.one)
      (CDouble.zero : ℚ) = true) ↔ (base = 0 ∧ exp < 0) := by
    rw [iterate_mul_rat]
    constructor
    · rintro ⟨h1, h2⟩
      have h3 : base ^ (-exp).toNat = 0 := by simpa [CDouble.eq, CDouble.zero] using h2
      exact ⟨pow_eq_zero_iff (by omega) |>.mp h3, h1⟩
    · rintro ⟨h1, h2⟩
      refine ⟨h2, ?_⟩
      have h3 : base ^ (-exp).toNat = 0 := by
        rw [h1]; exact zero_pow (by omega)
      simp [CDouble.eq, CDouble.zero, h3]
  rw [← hq]
  exact gen ℚ base

theorem power_error_iff_witness :
    AdvancedCalculator.power 2 (0 : ℚ) (-1) =
      some (.error (.runtime_error "Division by zero in power calculation.")) :=
  ((power_error_iff (-1) (by decide) (by decide) 2 (by decide)).2 0).1.mpr ⟨rfl, by decide⟩

/-- The exponent `INT_MIN`: `-exp` is `INT_MIN` again, the loop body never runs, and
`power` returns `1.0 / 1.0`; over exact rationals `power(0, INT_MIN)` and
`power(2, INT_MIN)` are both `1`. -/
theorem power_int_min_rat (base : ℚ) (fuel : Nat) :
    AdvancedCalculator.power (fuel + 1) base (-2147483648) = some (.ok 1) := by
  rw [power_of_int_min base fuel]
  simp [CDouble.eq, CDouble.one, CDouble.zero, CDouble.div]

/-- C5, refuted as stated: in binary64 arithmetic `base = 2^-400` is not zero and
`exp = -3` is negative, yet `power(base, -3)` returns no value whatever the budget:
the product underflows to `0.0` and the call ends in the `runtime_error`. -/
theorem power_underflow_no_value :
    CDouble.eq (Binary64.fin false 4503599627370496 (-452)) (CDouble.zero : Binary64) = false ∧
    (∀ (fuel : Nat) (v : Binary64),
      AdvancedCalculator.power fuel (Binary64.fin false 4503599627370496 (-452)) (-3) ≠
        some (.ok v)) ∧
    AdvancedCalculator.power 4 (Binary64.fin false 4503599627370496 (-452)) (-3) =
      some (.error (.runtime_error "Division by zero in power calculation.")) := by
  have big : ∀ fuel : Nat, 4 ≤ fuel →
      AdvancedCalculator.power fuel (Binary64.fin false 4503599627370496 (-452)) (-3) =
        some (.error (.runtime_error "Division by zero in power calculation.")) := by
    intro fuel hf
    rw [power_of_neg _ (-3) (by decide) (by decide) fuel (by push_cast; omega)]
    rw [if_pos (by decide!)]
  refine ⟨by decide!, ?_, big 4 (le_refl 4)⟩
  intro fuel v
  by_cases hf : 4 ≤ fuel
  · rw [big fuel hf]; simp
  · have small : AdvancedCalculator.power fuel
        (Binary64.fin false 4503599627370496 (-452)) (-3) = none := by
      have : fuel = 0 ∨ fuel = 1 ∨ fuel = 2 ∨ fuel = 3 := by omega
      rcases this with h | h | h | h <;> subst h <;> decide!
    rw [small]; simp

/-- C5, amended: for every `int` exponent `exp` with `INT_MIN < exp < 0` and every
budget of more than `-exp` loop steps, if the product of `-exp` factors `base` does not
compare equal to `0.0` then `power(base, exp)` returns `1.0` divided by that product;
with doubles read as exact rationals this is `1 / base ^ (-exp)` for every non-zero
`base`, and `power(2, -3)` is `0.125` in both readings. -/
theorem power_neg_value (exp : Int) (hmin : INT_MIN < exp) (hneg : exp < 0)
    (fuel : Nat) (hfuel : -exp < fuel) :
    (∀ (F : Type) [CDouble F] (base : F),
      CDouble.eq ((fun r : F => CDouble.mul r base)^[(-exp).toNat] CDouble.one)
          (CDouble.zero : F) = false →
      AdvancedCalculator.power fuel base exp =
        some (.ok (CDouble.div CDouble.one
          ((fun r : F => CDouble.mul r base)^[(-exp).toNat] CDouble.one)))) ∧
    (∀ base : ℚ, base ≠ 0 →
      AdvancedCalculator.power fuel base exp = some (.ok (1 / base ^ (-exp).toNat))) ∧
    AdvancedCalculator.power 4 (2 : ℚ) (-3) = some (.ok (1 / 8)) ∧
    AdvancedCalculator.power 4 (Binary64.fin false 4503599627370496 (-51)) (-3) =
      some (.ok (Binary64.fin false 4503599627370496 (-55))) := by
  unfold INT_MIN at hmin
  have gen : ∀ (F : Type) [CDouble F] (base : F),
      CDouble.eq ((fun r : F => CDouble.mul r base)^[(-exp).toNat] CDouble.one)
          (CDouble.zero : F) = false →
      AdvancedCalculator.power fuel base exp =
        some (.ok (CDouble.div CDouble.one
          ((fun r : F => CDouble.mul r base)^[(-exp).toNat] CDouble.one))) := by
    intro F _ base hz
    rw [power_of_neg base exp hneg hmin fuel hfuel, hz]
    simp
  have rat : ∀ (k : Int) (f : Nat), -2147483648 < k → k < 0 → -k < f → ∀ base : ℚ, base ≠ 0 →
      AdvancedCalculator.power f base k = some (.ok (1 / base ^ (-k).toNat)) := by
    intro k f h1 h2 h3 base hb
    rw [power_of_neg base k h2 h1 f h3, iterate_mul_rat]
    have : base ^ (-k).toNat ≠ 0 := pow_ne_zero _ hb
    simp [CDouble.eq, CDouble.zero, CDouble.div, CDouble.one, this]
  refine ⟨gen, rat exp fuel hmin hneg hfuel, ?_, by decide!⟩
  have e : (-(-3 : Int)).toNat = 3 := rfl
  rw [rat (-3) 4 (by decide) (by decide) (by decide) 2 (by norm_num), e]
  norm_num

theorem power_neg_value_witness :
    AdvancedCalculator.power 2 (5 : ℚ) (-1) = some (.ok (1 / 5 ^ (-(-1 : Int)).toNat)) :=
  (power_neg_value (-1) (by decide) (by decide) 2 (by decide)).2.1 5 (by norm_num)

/-- C6: for every `int` exponent `exp > 0` and every budget of more than `exp` loop
steps, `power(base, exp)` returns `1.0` multiplied by `base` exactly `exp` times; with
doubles read as exact rationals that is `base ^ exp`, and `power(2.0, 3)` is `8.0` in
both readings. -/
theorem power_pos_value (exp : Int) (hpos : 0 < exp) (hmax : exp ≤ INT_MAX)
    (fuel : Nat) (hfuel : exp < fuel) :
    (∀ (F : Type) [CDouble F] (base : F),
      AdvancedCalculator.power fuel base exp =
        some (.ok ((fun r : F => CDouble.mul r base)^[exp.toNat] CDouble.one))) ∧
    (∀ base : ℚ, AdvancedCalculator.power fuel base exp = some (.ok (base ^ exp.toNat))) ∧
    AdvancedCalculator.power 4 (2 : ℚ) 3 = some (.ok 8) ∧
    AdvancedCalculator.power 4 (Binary64.fin false 4503599627370496 (-51)) 3 =
      some (.ok (Binary64.fin false 4503599627370496 (-49))) := by
  unfold INT_MAX at hmax
  refine ⟨fun F _ base => power_of_pos base exp hpos hmax fuel hfuel, ?_, ?_, by decide!⟩
  · intro base
    rw [power_of_pos base exp hpos hmax fuel hfuel, iterate_mul_rat]
  · have e : (3 : Int).toNat = 3 := rfl
    rw [power_of_pos (2 : ℚ) 3 (by decide) (by decide) 4 (by decide), iterate_mul_rat, e]
    norm_num

theorem power_pos_value_witness :
    AdvancedCalculator.power 2147483648 (3 : ℚ) 2147483647 =
      some (.ok (3 ^ (2147483647 : Int).toNat)) :=
  (power_pos_value 2147483647 (by decide) (by decide) 2147483648 (by decide)).2.1 3


/-! ## `Calculator::divide` and `AdvancedCalculator::average` -/

theorem two_pow_bitLength_le : ∀ (fuel n : Nat), n ≠ 0 → 2 ^ Binary64.bitLength fuel n ≤ 2 * n := by
  intro fuel
  induction fuel with
  | zero => intro n hn; simp [Binary64.bitLength]; omega
  | succ fuel ih =>
    intro n hn
    unfold Binary64.bitLength
    rw [if_neg hn, pow_succ]
    by_cases h2 : n / 2 = 0
    · have : Binary64.bitLength fuel (n / 2) = 0 := by
        rw [h2]; cases fuel <;> simp [Binary64.bitLength]
      rw [this]; omega
    · have := ih (n / 2) h2
      omega

/-- Converting a positive size to `double` never gives a value that compares equal
to `0.0`. -/
theorem ofSize_ne_zero (n : Nat) (hn : 0 < n) :
    Binary64.eq (Binary64.ofSize n) (.fin false 0 (-1074)) = false := by
  have hn0 : n ≠ 0 := by omega
  have hb := two_pow_bitLength_le n n hn0
  have hq : 1 ≤ n * 2 ^ (0 - max (0 + (Binary64.bitLength n n : Int) - 53) (-1074)).toNat /
      2 ^ (max (0 + (Binary64.bitLength n n : Int) - 53) (-1074) - 0).toNat := by
    by_cases hbits : Binary64.bitLength n n ≤ 53
    · have e1 : (max (0 + (Binary64.bitLength n n : Int) - 53) (-1074) - 0).toNat = 0 := by omega
      rw [e1, pow_zero, Nat.div_one]
      exact Nat.mul_pos hn (pow_pos (by norm_num) _)
    · have e1 : (0 - max (0 + (Binary64.bitLength n n : Int) - 53) (-1074)).toNat = 0 := by omega
      have e2 : (max (0 + (Binary64.bitLength n n : Int) - 53) (-1074) - 0).toNat =
          Binary64.bitLength n n - 53 := by omega
      rw [e1, e2, pow_zero, Nat.mul_one]
      apply Nat.div_pos _ (pow_pos (by norm_num) _)
      have h3 : 2 ^ (Binary64.bitLength n n - 53) * 2 ≤ 2 ^ Binary64.bitLength n n := by
        rw [← pow_succ]
        exact Nat.pow_le_pow_right (by norm_num) (by omega)
      omega
  unfold Binary64.ofSize Binary64.round
  rw [if_neg hn0]
  simp only []
  simp only [zero_add, zero_sub, sub_zero] at hq ⊢
  split_ifs <;> simp [Binary64.eq]
  all_goals omega

/-- For any `double` arithmetic in which the conversion of a positive size does not
compare equal to `0.0`, `average` ends in no exception. -/
theorem average_ok_of_size {F : Type} [CDouble F]
    (hsize : ∀ n : Nat, 0 < n → CDouble.eq (CDouble.ofSize n : F) (CDouble.zero : F) = false)
    (numbers : List F) :
    ∃ v, AdvancedCalculator.average numbers = .ok v := by
  unfold AdvancedCalculator.average
  cases numbers with
  | nil => exact ⟨CDouble.zero, rfl⟩
  | cons x xs =>
    simp only [List.isEmpty_cons, Bool.false_eq_true, if_false]
    unfold Calculator.divide
    rw [hsize _ (by simp)]
    exact ⟨_, rfl⟩

theorem rat_ofSize_ne_zero (n : Nat) (hn : 0 < n) :
    CDouble.eq (CDouble.ofSize n : ℚ) (CDouble.zero : ℚ) = false := by
  have : (n : ℚ) ≠ 0 := by exact_mod_cast (by omega : n ≠ 0)
  simp [CDouble.eq, CDouble.ofSize, CDouble.zero, this]

/-- C7: `average` of the empty sequence is `0.0`; of a non-empty sequence it is
`divide(sum(xs), length(xs))`, where `sum(xs)` is the left-to-right sum from `0.0`;
with doubles read as exact rationals that is the sum divided by the length, and
`average([1.0, 2.0, 3.0, 4.0])` is `2.5` in both readings. -/
theorem average_spec :
    (∀ (F : Type) [CDouble F],
      AdvancedCalculator.average ([] : List F) = .ok CDouble.zero ∧
      ∀ (x : F) (xs : List F),
        AdvancedCalculator.average (x :: xs) =
          Calculator.divide (Calculator.sum (x :: xs)) (CDouble.ofSize (xs.length + 1)) ∧
        Calculator.sum (x :: xs) = (x :: xs).foldl CDouble.add CDouble.zero) ∧
    (∀ (x : ℚ) (xs : List ℚ),
      AdvancedCalculator.average (x :: xs) =
        .ok ((x :: xs).foldl (fun a b => a + b) 0 / ((xs.length + 1 : Nat) : ℚ)) ∧
      (x :: xs).foldl (fun a b => a + b) 0 = (x :: xs).sum) ∧
    AdvancedCalculator.average [(1 : ℚ), 2, 3, 4] = .ok (5 / 2) ∧
    AdvancedCalculator.average
        [Binary64.fin false 4503599627370496 (-52), Binary64.fin false 4503599627370496 (-51),
         Binary64.fin false 6755399441055744 (-51), Binary64.fin false 4503599627370496 (-50)] =
      .ok (Binary64.fin false 5629499534213120 (-51)) := by
  have hrat : ∀ (x : ℚ) (xs : List ℚ),
      AdvancedCalculator.average (x :: xs) =
        .ok ((x :: xs).foldl (fun a b => a + b) 0 / ((xs.length + 1 : Nat) : ℚ)) := by
    intro x xs
    unfold AdvancedCalculator.average
    simp only [List.isEmpty_cons, Bool.false_eq_true, if_false]
    unfold Calculator.divide
    rw [rat_ofSize_ne_zero _ (by simp)]
    rfl
  refine ⟨?_, ?_, ?_, by decide!⟩
  · intro F _
    refine ⟨rfl, ?_⟩
    intro x xs
    exact ⟨rfl, rfl⟩
  · intro x xs
    refine ⟨hrat x xs, ?_⟩
    rw [List.sum_eq_foldl]
  · rw [hrat]
    norm_num

/-- C8: `average` ends in no exception, for every sequence, both with doubles read as
exact rationals and with doubles read as binary64 values: the divisor handed to
`divide` is the converted length of a non-empty sequence, which does not compare equal
to `0.0`. -/
theorem average_never_fails :
    (∀ xs : List ℚ, ∃ v, AdvancedCalculator.average xs = .ok v) ∧
    (∀ xs : List Binary64, ∃ v, AdvancedCalculator.average xs = .ok v) ∧
    (∀ n : Nat, 0 < n → CDouble.eq (CDouble.ofSize n : ℚ) (CDouble.zero : ℚ) = false) ∧
    (∀ n : Nat, 0 < n →
      CDouble.eq (CDouble.ofSize n : Binary64) (CDouble.zero : Binary64) = false) :=
  ⟨average_ok_of_size rat_ofSize_ne_zero, average_ok_of_size ofSize_ne_zero,
    rat_ofSize_ne_zero, ofSize_ne_zero⟩

/-- C9: `divide(a, b)` throws `invalid_argument` exactly when `b == 0.0` and otherwise
returns the quotient `a / b`, for any `double` arithmetic; with doubles read as exact
rationals the condition is `b = 0`; `divide(a, 0.0)` throws for every `a`, and
`divide(10.0, 4.0)` is `2.5` in both readings. -/
theorem divide_spec :
    (∀ (F : Type) [CDouble F] (a b : F),
      (Calculator.divide a b = .error (.invalid_argument "Division by zero is not allowed.") ↔
        CDouble.eq b (CDouble.zero : F) = true) ∧
      (Calculator.divide a b = .ok (CDouble.div a b) ↔
        CDouble.eq b (CDouble.zero : F) = false)) ∧
    (∀ a b : ℚ,
      (Calculator.divide a b = .error (.invalid_argument "Division by zero is not allowed.") ↔
        b = 0) ∧
      (Calculator.divide a b = .ok (a / b) ↔ b ≠ 0)) ∧
    (∀ a : ℚ, Calculator.divide a 0 =
      .error (.invalid_argument "Division by zero is not allowed.")) ∧
    (∀ a : Binary64, Calculator.divide a (Binary64.fin false 0 (-1074)) =
      .error (.invalid_argument "Division by zero is not allowed.")) ∧
    Calculator.divide (10 : ℚ) 4 = .ok (5 / 2) ∧
    Calculator.divide (Binary64.fin false 5629499534213120 (-49))
        (Binary64.fin false 4503599627370496 (-50)) =
      .ok (Binary64.fin false 5629499534213120 (-51)) := by
  have gen : ∀ (F : Type) [CDouble F] (a b : F),
      (Calculator.divide a b = .error (.invalid_argument "Division by zero is not allowed.") ↔
        CDouble.eq b (CDouble.zero : F) = true) ∧
      (Calculator.divide a b = .ok (CDouble.div a b) ↔
        CDouble.eq b (CDouble.zero : F) = false) := by
    intro F _ a b
    unfold Calculator.divide
    cases h : CDouble.eq b (CDouble.zero : F) <;> simp
  have hz : ∀ b : ℚ, CDouble.eq b (CDouble.zero : ℚ) = true ↔ b = 0 := by
    intro b; simp [CDouble.eq, CDouble.zero]
  refine ⟨gen, ?_, ?_, ?_, ?_, by decide!⟩
  · intro a b
    have h := gen ℚ a b
    refine ⟨h.1.trans (hz b), ?_⟩
    have e : CDouble.div a b = a / b := rfl
    rw [← e, h.2]
    simp [CDouble.eq, CDouble.zero]
  · intro a
    exact ((gen ℚ a 0).1).mpr ((hz 0).mpr rfl)
  · intro a
    exact ((gen Binary64 a _).1).mpr (by decide!)
  · have e : CDouble.div (10 : ℚ) 4 = 5 / 2 := by
      show (10 : ℚ) / 4 = 5 / 2
      norm_num
    rw [← e]
    exact ((gen ℚ 10 4).2).mpr (by simp [CDouble.eq, CDouble.zero])

/-! ## Termination of the `MathUtils` loops -/

/-- With `n = INT_MAX` the test `i <= n` holds for every `int` counter, so within no
budget does the loop of `factorial` reach `return result`. -/
theorem factorialLoop_int_max_none :
    ∀ (fuel : Nat) (i result : Int), i ≤ 2147483647 →
      MathUtils.factorialLoop fuel 2147483647 i result = none := by
  intro fuel
  induction fuel with
  | zero => intro i result _; rfl
  | succ fuel ih =>
    intro i result hi
    unfold MathUtils.factorialLoop
    rw [if_pos hi]
    exact ih _ _ (wrap32_le _)

/-- C11, at the input `n = 2147483647`: the argument is a non-negative `int`, so the
claim promises a returned value, but `factorial` yields nothing for any loop budget:
`i <= n` never fails and `++i` wraps from `INT_MAX` to `INT_MIN`. -/
theorem factorial_int_max_diverges :
    (0 : Int) ≤ 2147483647 ∧ (2147483647 : Int) ≤ INT_MAX ∧
    ∀ fuel : Nat, MathUtils.factorial fuel 2147483647 = none := by
  refine ⟨by decide, by decide, ?_⟩
  intro fuel
  unfold MathUtils.factorial
  rw [if_neg (by decide), if_neg (by decide),
    factorialLoop_int_max_none fuel 1 1 (by decide)]
  rfl

/-- The counter of `is_prime` never passes `n`: at `i = n` the test `n % i == 0`
succeeds, so the loop is left after at most `n - i + 1` visits of the loop head. -/
theorem is_primeLoop_total (n : Int) (hn : n ≤ 2147483647) :
    ∀ (fuel : Nat) (i : Int), 2 ≤ i → i ≤ n → n - i < fuel →
      ∃ b, MathUtils.is_primeLoop fuel n i = some b := by
  intro fuel
  induction fuel with
  | zero => intro i _ h2 h3; simp at h3; omega
  | succ fuel ih =>
    intro i h1 h2 h3
    unfold MathUtils.is_primeLoop
    by_cases hsq : wrap32 (i * i) ≤ n
    · rw [if_pos hsq]
      by_cases hdiv : Int.tmod n i = 0
      · rw [if_pos hdiv]; exact ⟨false, rfl⟩
      · rw [if_neg hdiv]
        have hne : i ≠ n := by
          intro h; subst h; exact hdiv (Int.tmod_self)
        rw [wrap32_eq_self (by omega) (by omega)]
        exact ih (i + 1) (by omega) (by omega) (by push_cast at h3; omega)
    · rw [if_neg hsq]; exact ⟨true, rfl⟩

/-- C12: for every `int` `n` and every budget of at least `n` loop steps, `is_prime(n)`
returns a boolean; this includes the `n` near `INT_MAX` for which `i * i` leaves the
`int` range and is stored reduced modulo `2^32`. -/
theorem is_prime_total (n : Int) (_hlo : INT_MIN ≤ n) (hhi : n ≤ INT_MAX)
    (fuel : Nat) (hfuel : n ≤ fuel) :
    ∃ b, MathUtils.is_prime fuel n = some b := by
  unfold INT_MAX at hhi
  unfold MathUtils.is_prime
  by_cases h1 : n ≤ 1
  · rw [if_pos h1]; exact ⟨false, rfl⟩
  · rw [if_neg h1]
    exact is_primeLoop_total n hhi fuel 2 (by omega) (by omega) (by omega)

theorem is_prime_total_witness :
    ∃ b, MathUtils.is_prime 2147483647 2147483647 = some b :=
  is_prime_total 2147483647 (by decide) (by decide) 2147483647 (by decide)

/-! ## `Calculator`: `add`, `subtract`, `sign`, `sum` -/

theorem wrap32_add_left (a b : Int) : wrap32 (wrap32 a + b) = wrap32 (a + b) := by
  unfold wrap32; omega

theorem wrap32_add_right (a b : Int) : wrap32 (a + wrap32 b) = wrap32 (a + b) := by
  unfold wrap32; omega

theorem wrap32_idem (a : Int) : wrap32 (wrap32 a) = wrap32 a := by
  unfold wrap32; omega

/-- The `int` accumulation stays congruent to the exact sum modulo `2^32`. -/
theorem foldl_add_wrap (xs : List Int) :
    ∀ init : Int, wrap32 (xs.foldl Numeric.add init) = wrap32 (init + xs.sum) := by
  induction xs with
  | nil => intro init; simp
  | cons x xs ih =>
    intro init
    rw [List.foldl_cons, ih, List.sum_cons]
    show wrap32 (wrap32 (init + x) + xs.sum) = wrap32 (init + (x + xs.sum))
    rw [wrap32_add_left, add_assoc]

/-- Started from a value that is its own 32-bit reduction, the accumulation returns such
a value. -/
theorem foldl_add_reduced (xs : List Int) :
    ∀ init : Int, wrap32 init = init →
      wrap32 (xs.foldl Numeric.add init) = xs.foldl Numeric.add init := by
  induction xs with
  | nil => intro init h; exact h
  | cons x xs ih =>
    intro init _
    rw [List.foldl_cons]
    exact ih _ (wrap32_idem _)

/-- On `int` elements `sum` is the exact sum reduced modulo `2^32`. -/
theorem sum_int_eq (xs : List Int) : Calculator.sum xs = wrap32 xs.sum := by
  unfold Calculator.sum
  cases xs with
  | nil => rfl
  | cons x xs =>
    simp only [List.isEmpty_cons, Bool.false_eq_true, if_false]
    rw [← foldl_add_reduced (x :: xs) Numeric.zero rfl, foldl_add_wrap]
    show wrap32 (0 + (x :: xs).sum) = wrap32 (x :: xs).sum
    rw [zero_add]

/-- C13: for every element type and every sequence, `sum` is the left fold of `+` from
`T{}`, also on the empty sequence, where it returns `T{}`; on three elements it is
`((T{} + a) + b) + c`; for `int` elements `sum([]) = 0`, `sum([1,2,3]) = 6` and
`sum([a,b,c])` is the `int` value of `a + b + c`; over exact rationals
`sum([a,b,c]) = a + b + c`; in binary64 `sum([1.5, 2.5, 3.0]) = 7.0`. -/
theorem sum_eq_foldl :
    (∀ (T : Type) [Numeric T] (xs : List T),
      Calculator.sum xs = xs.foldl Numeric.add Numeric.zero) ∧
    (∀ (T : Type) [Numeric T], Calculator.sum ([] : List T) = Numeric.zero) ∧
    (∀ (T : Type) [Numeric T] (a b c : T),
      Calculator.sum [a, b, c] =
        Numeric.add (Numeric.add (Numeric.add Numeric.zero a) b) c) ∧
    Calculator.sum ([] : List Int) = 0 ∧
    Calculator.sum [(1 : Int), 2, 3] = 6 ∧
    (∀ a b c : Int, Calculator.sum [a, b, c] = wrap32 (a + b + c)) ∧
    Calculator.sum ([] : List ℚ) = 0 ∧
    (∀ a b c : ℚ, Calculator.sum [a, b, c] = a + b + c) ∧
    Calculator.sum
        [Binary64.fin false 6755399441055744 (-52), Binary64.fin false 5629499534213120 (-51),
         Binary64.fin false 6755399441055744 (-51)] =
      Binary64.fin false 7881299347898368 (-50) := by
  refine ⟨?_, ?_, ?_, rfl, by decide, ?_, rfl, ?_, by decide!⟩
  · intro T _ xs
    unfold Calculator.sum
    cases xs with
    | nil => rfl
    | cons x xs => rfl
  · intro T _; rfl
  · intro T _ a b c; rfl
  · intro a b c
    rw [sum_int_eq]
    simp [add_assoc]
  · intro a b c
    show (0 + a + b) + c = a + b + c
    rw [zero_add]

/-- C14: `sign(x)` is one of `-1`, `0`, `1`; it is `1` exactly for `x > 0`, `-1` exactly
for `x < 0`, `0` exactly for `x = 0`, and so it is the mathematical sign of `x`. -/
theorem sign_spec (x : Int) :
    (Calculator.sign x = -1 ∨ Calculator.sign x = 0 ∨ Calculator.sign x = 1) ∧
    (Calculator.sign x = 1 ↔ 0 < x) ∧
    (Calculator.sign x = -1 ↔ x < 0) ∧
    (Calculator.sign x = 0 ↔ x = 0) ∧
    Calculator.sign x = Int.sign x := by
  unfold Calculator.sign
  rcases lt_trichotomy x 0 with h | h | h
  · have h1 : ¬ x > 0 := by omega
    rw [if_neg h1, if_pos h, Int.sign_eq_neg_one_of_neg h]
    refine ⟨by simp, by omega, by omega, by omega, rfl⟩
  · subst h
    simp
  · rw [if_pos h, Int.sign_eq_one_of_pos h]
    refine ⟨by simp, by omega, by omega, by omega, rfl⟩

/-- C17: `add(a, b) = add(b, a)` for all `a`, `b`, the 32-bit reduction included;
`add(INT_MAX, 1)` and `add(1, INT_MAX)`, for one, are both `INT_MIN`. -/
theorem add_commutative :
    (∀ a b : Int, Calculator.add a b = Calculator.add b a) ∧
    Calculator.add 2147483647 1 = -2147483648 ∧
    Calculator.add 1 2147483647 = -2147483648 := by
  refine ⟨?_, by decide, by decide⟩
  intro a b
  unfold Calculator.add
  rw [add_comm]

/-- C18: `subtract(a, 0) = a` for every `int` `a`. -/
theorem subtract_zero (a : Int) (hlo : INT_MIN ≤ a) (hhi : a ≤ INT_MAX) :
    Calculator.subtract a 0 = a := by
  unfold INT_MIN at hlo
  unfold INT_MAX at hhi
  unfold Calculator.subtract
  rw [sub_zero, wrap32_eq_self hlo hhi]

theorem subtract_zero_witness : Calculator.subtract (-2147483648) 0 = -2147483648 :=
  subtract_zero (-2147483648) (by decide) (by decide)

/-- C20: for all sequences of `int` values, `sum(xs ++ ys) = add(sum(xs), sum(ys))`,
with `+` reduced modulo `2^32`, also when `xs` or `ys` is empty. -/
theorem sum_append :
    (∀ xs ys : List Int,
      Calculator.sum (xs ++ ys) = Calculator.add (Calculator.sum xs) (Calculator.sum ys)) ∧
    (∀ ys : List Int,
      Calculator.sum ([] ++ ys) = Calculator.add (Calculator.sum []) (Calculator.sum ys)) ∧
    (∀ xs : List Int,
      Calculator.sum (xs ++ []) = Calculator.add (Calculator.sum xs) (Calculator.sum [])) ∧
    Calculator.sum ([2147483647] ++ [1, 5]) =
      Calculator.add (Calculator.sum [2147483647]) (Calculator.sum [1, 5]) := by
  have main : ∀ xs ys : List Int,
      Calculator.sum (xs ++ ys) = Calculator.add (Calculator.sum xs) (Calculator.sum ys) := by
    intro xs ys
    rw [sum_int_eq, sum_int_eq, sum_int_eq, List.sum_append]
    unfold Calculator.add
    rw [wrap32_add_left, wrap32_add_right]
  exact ⟨main, fun ys => main [] ys, fun xs => main xs [], main _ _⟩

/-! ## `AdvancedCalculator::power` with exponent zero -/

/-- C16: `power(b, 0)` returns `1.0` and raises nothing, for every base, every loop
budget and any `double` arithmetic; in particular `power(0, 0)` and `power(5.0, 0)`
are `1.0`, over exact rationals and in binary64. -/
theorem power_zero_exp :
    (∀ (F : Type) [CDouble F] (fuel : Nat) (base : F),
      AdvancedCalculator.power fuel base 0 = some (.ok CDouble.one)) ∧
    (∀ (fuel : Nat) (base : ℚ), AdvancedCalculator.power fuel base 0 = some (.ok 1)) ∧
    (∀ (fuel : Nat) (base : Binary64),
      AdvancedCalculator.power fuel base 0 =
        some (.ok (Binary64.fin false 4503599627370496 (-52)))) ∧
    AdvancedCalculator.power 0 (0 : ℚ) 0 = some (.ok 1) ∧
    AdvancedCalculator.power 0 (5 : ℚ) 0 = some (.ok 1) := by
  have gen : ∀ (F : Type) [CDouble F] (fuel : Nat) (base : F),
      AdvancedCalculator.power fuel base 0 = some (.ok CDouble.one) := by
    intro F _ fuel base
    unfold AdvancedCalculator.power
    rw [if_pos rfl]
  exact ⟨gen, fun fuel base => gen ℚ fuel base, fun fuel base => gen Binary64 fuel base,
    gen ℚ 0 0, gen ℚ 0 5⟩

/-! ## `MathUtils::factorial` beyond the 64-bit range -/

theorem two_pow_64_dvd_factorial (n : Nat) (hn : 66 ≤ n) :
    18446744073709551616 ∣ n.factorial := by
  have h66 : 18446744073709551616 ∣ Nat.factorial 66 := by decide
  exact Nat.dvd_trans h66 (Nat.factorial_dvd_factorial hn)

/-- C19: for every `int` `n` with `0 <= n < 2147483647` and every budget of more than
`n` loop steps, `factorial(n)` raises nothing and returns the value `r` of the signed
64-bit range with `r` congruent to `n!` modulo `2^64`; `r` is `n!` itself for
`n <= 20` and `0` for `n >= 66`. -/
theorem factorial_wraps (n : Int) (h0 : 0 ≤ n) (hmax : n < 2147483647) (fuel : Nat)
    (hfuel : n < fuel) :
    ∃ r : Int, MathUtils.factorial fuel n = some (.ok r) ∧
      -9223372036854775808 ≤ r ∧ r ≤ 9223372036854775807 ∧
      (18446744073709551616 : Int) ∣ (r - (n.toNat.factorial : Int)) ∧
      (n ≤ 20 → r = (n.toNat.factorial : Int)) ∧
      (66 ≤ n → r = 0) := by
  have hret := factorial_eq_wrap n.toNat (by omega) fuel (by omega)
  rw [Int.toNat_of_nonneg h0] at hret
  refine ⟨wrap64 (n.toNat.factorial : Int), hret, ?_, ?_, ?_, ?_, ?_⟩
  · unfold wrap64; omega
  · unfold wrap64; omega
  · refine ⟨-(((n.toNat.factorial : Int) + 9223372036854775808) / 18446744073709551616), ?_⟩
    unfold wrap64; omega
  · intro h20
    have hbound : n.toNat.factorial ≤ Nat.factorial 20 := Nat.factorial_le (by omega)
    have h20v : Nat.factorial 20 = 2432902008176640000 := by decide
    exact wrap64_eq_self (by omega) (by omega)
  · intro h66
    obtain ⟨k, hk⟩ := two_pow_64_dvd_factorial n.toNat (by omega)
    rw [hk]
    unfold wrap64
    push_cast
    omega

theorem factorial_wraps_witness :
    ∃ r : Int, MathUtils.factorial 67 66 = some (.ok r) ∧
      -9223372036854775808 ≤ r ∧ r ≤ 9223372036854775807 ∧
      (18446744073709551616 : Int) ∣ (r - ((66 : Int).toNat.factorial : Int)) ∧
      ((66 : Int) ≤ 20 → r = ((66 : Int).toNat.factorial : Int)) ∧
      ((66 : Int) ≤ 66 → r = 0) :=
  factorial_wraps 66 (by decide) (by decide) 67 (by decide)

/-! ## `divide(a, b) * b` -/

/-- C15, refuted as stated: in binary64 arithmetic, with `a = 2^1023` and `b = 0.5`
(so `b != 0`), `divide(a, b)` overflows to `+inf` and `divide(a, b) * b` is `+inf`,
which is within no tolerance of the finite `a`. -/
theorem divide_mul_overflow :
    CDouble.eq (Binary64.fin false 4503599627370496 (-53)) (CDouble.zero : Binary64) = false ∧
    Calculator.divide (Binary64.fin false 4503599627370496 971)
        (Binary64.fin false 4503599627370496 (-53)) = .ok (Binary64.inf false) ∧
    CDouble.mul (Binary64.inf false) (Binary64.fin false 4503599627370496 (-53)) =
      Binary64.inf false := by
  refine ⟨by decide!, by decide!, by decide!⟩

theorem lt_two_pow_bitLength : ∀ (fuel n : Nat), n ≤ fuel → n < 2 ^ Binary64.bitLength fuel n := by
  intro fuel
  induction fuel with
  | zero => intro n hn; simp [Binary64.bitLength]; omega
  | succ fuel ih =>
    intro n hn
    unfold Binary64.bitLength
    by_cases h0 : n = 0
    · rw [if_pos h0]; omega
    · rw [if_neg h0, pow_succ]
      have := ih (n / 2) (by omega)
      omega

/-- Rounding `(M + ρ) * 2^E`, `0 <= ρ < 1`, to a normal binary64 number `m * 2^e` moves
the value by at most `2^-53` times the result. -/
theorem round_error (neg : Bool) (M : Nat) (E : Int) (sticky : Bool) (ρ : ℚ)
    (hM : M ≠ 0) (hρ0 : 0 ≤ ρ) (hρ1 : ρ < 1) (hst : sticky = true ↔ ρ ≠ 0)
    (hbig : sticky = true → 2 ^ 54 ≤ M)
    (s : Bool) (m : Nat) (e : Int)
    (hres : Binary64.round neg M E sticky = .fin s m e) (hnorm : 2 ^ 52 ≤ m) :
    s = neg ∧
    |(m : ℚ) * (2 : ℚ) ^ e - ((M : ℚ) + ρ) * (2 : ℚ) ^ E| ≤ (m : ℚ) * (2 : ℚ) ^ e / 2 ^ 53 := by
  unfold Binary64.round at hres
  rw [if_neg hM] at hres
  simp only [] at hres
  set b : Int := (Binary64.bitLength M M : Int) with hb
  set e0 : Int := max (E + b - 53) (-1074) with he0
  set k : Nat := (e0 - E).toNat with hk
  set q : Nat := M * 2 ^ (E - e0).toNat / 2 ^ k with hq
  set r : Nat := M % 2 ^ k with hr
  set up : Bool := decide (2 * r > 2 ^ k) || (decide (2 * r = 2 ^ k) && (sticky || decide (q % 2 = 1))) with hup
  set m0 : Nat := if up = true then q + 1 else q with hm0
  clear_value m0 up
  have hT : (0 : ℚ) < (2 : ℚ) ^ e0 := zpow_pos (by norm_num) _
  have hS : (0 : ℚ) < (2 : ℚ) ^ E := zpow_pos (by norm_num) _
  -- the stored pair `(m, e)` denotes `m0 * 2 ^ e0`
  have hA : s = neg ∧ (m : ℚ) * (2 : ℚ) ^ e = (m0 : ℚ) * (2 : ℚ) ^ e0 ∧ 2 ^ 52 ≤ m0 := by
    by_cases h53 : m0 = 2 ^ 53
    · rw [if_pos h53, if_pos h53] at hres
      by_cases hov : e0 + 1 > 971
      · rw [if_pos hov] at hres; cases hres
      · rw [if_neg hov] at hres
        simp only [Binary64.fin.injEq] at hres
        obtain ⟨hs, hm, he⟩ := hres
        refine ⟨hs.symm, ?_, by omega⟩
        rw [← hm, ← he, h53, zpow_add_one₀ (by norm_num : (2 : ℚ) ≠ 0)]
        push_cast
        ring
    · rw [if_neg h53, if_neg h53] at hres
      by_cases hov : e0 > 971
      · rw [if_pos hov] at hres; cases hres
      · rw [if_neg hov] at hres
        simp only [Binary64.fin.injEq] at hres
        obtain ⟨hs, hm, he⟩ := hres
        refine ⟨hs.symm, ?_, by omega⟩
        rw [← hm, ← he]
  obtain ⟨hs, hval, hm052⟩ := hA
  refine ⟨hs, ?_⟩
  rw [hval]
  -- the rounding step is off by at most half a unit in the last place
  have hB : |(m0 : ℚ) * (2 : ℚ) ^ e0 - ((M : ℚ) + ρ) * (2 : ℚ) ^ E| ≤ (2 : ℚ) ^ e0 / 2 := by
    clear_value q r
    by_cases hk0 : e0 ≤ E
    · -- no digit is dropped: the value is stored exactly
      have hkz : k = 0 := by omega
      have hst0 : sticky = false := by
        cases hsv : sticky with
        | false => rfl
        | true =>
          exfalso
          have h54 := hbig hsv
          have hlt := lt_two_pow_bitLength M M le_rfl
          have hb55 : 55 ≤ Binary64.bitLength M M := by
            by_contra hlt55
            push_neg at hlt55
            have : 2 ^ Binary64.bitLength M M ≤ 2 ^ 54 :=
              Nat.pow_le_pow_right (by norm_num) (by omega)
            omega
          omega
      have hρ : ρ = 0 := by
        by_contra hne
        have := hst.mpr hne
        rw [hst0] at this
        cases this
      have hr0 : r = 0 := by rw [hr, hkz]; simp [Nat.mod_one]
      have hq0 : q = M * 2 ^ (E - e0).toNat := by rw [hq, hkz]; simp
      have hup0 : up = false := by rw [hup, hr0, hkz]; simp
      have hm00 : m0 = q := by rw [hm0, hup0]; simp
      have hz : ((2 : ℚ) ^ ((E - e0).toNat)) * (2 : ℚ) ^ e0 = (2 : ℚ) ^ E := by
        rw [← zpow_natCast, ← zpow_add₀ (by norm_num : (2 : ℚ) ≠ 0)]
        congr 1
        omega
      have hzero : (m0 : ℚ) * (2 : ℚ) ^ e0 - ((M : ℚ) + ρ) * (2 : ℚ) ^ E = 0 := by
        rw [hm00, hq0, hρ]
        push_cast
        rw [mul_assoc, hz]
        ring
      rw [hzero, abs_zero]
      positivity
    · -- `k` digits are dropped and the rest is rounded to nearest, ties to even
      have hEe : (E - e0).toNat = 0 := by omega
      have hq1 : q = M / 2 ^ k := by rw [hq, hEe]; simp
      have hdm : 2 ^ k * q + r = M := by rw [hq1, hr]; exact Nat.div_add_mod M (2 ^ k)
      have hrlt : r < 2 ^ k := by rw [hr]; exact Nat.mod_lt _ (by positivity)
      obtain ⟨h, hh⟩ : ∃ h : Nat, 2 ^ k = 2 * h :=
        ⟨2 ^ (k - 1), by rw [← pow_succ']; congr 1; omega⟩
      have hz : (2 : ℚ) ^ e0 = ((2 ^ k : Nat) : ℚ) * (2 : ℚ) ^ E := by
        push_cast
        rw [← zpow_natCast, ← zpow_add₀ (by norm_num : (2 : ℚ) ≠ 0)]
        congr 1
        omega
      generalize 2 ^ k = P at hup hdm hrlt hh hz
      have hMq : (M : ℚ) = (P : ℚ) * q + r := by exact_mod_cast hdm.symm
      have hPh : (P : ℚ) = 2 * h := by exact_mod_cast hh
      have hrq : (r : ℚ) + 1 ≤ P := by exact_mod_cast hrlt
      have hkey : |((m0 : ℚ) - q) * P - (r + ρ)| ≤ (P : ℚ) / 2 := by
        by_cases hu : up = true
        · have hm01 : (m0 : ℚ) = q + 1 := by rw [hm0, if_pos hu]; push_cast; ring
          have h2r : P ≤ 2 * r := by
            rw [hup] at hu
            simp only [Bool.or_eq_true, Bool.and_eq_true, decide_eq_true_eq] at hu
            rcases hu with hu | hu
            · omega
            · omega
          have h2rq : (P : ℚ) ≤ 2 * r := by exact_mod_cast h2r
          rw [hm01, abs_le]
          constructor <;> linarith
        · have hm01 : (m0 : ℚ) = q := by rw [hm0, if_neg hu]
          have hu' : up = false := by simpa using hu
          rw [hup] at hu'
          simp only [Bool.or_eq_false_iff, Bool.and_eq_false_iff, decide_eq_false_iff_not,
            Bool.or_eq_false_iff] at hu'
          obtain ⟨hgt, htie⟩ := hu'
          rw [hm01, abs_le]
          by_cases heq : 2 * r = P
          · have hst0 : sticky = false := by
              rcases htie with htie | htie
              · exact absurd heq htie
              · exact htie.1
            have hρ : ρ = 0 := by
              by_contra hne
              have := hst.mpr hne
              rw [hst0] at this
              cases this
            have h2rq : (2 : ℚ) * r = P := by exact_mod_cast heq
            constructor <;> linarith
          · have hlt : r + 1 ≤ h := by omega
            have hltq : (r : ℚ) + 1 ≤ h := by exact_mod_cast hlt
            constructor <;> linarith
      have hfac : (m0 : ℚ) * (2 : ℚ) ^ e0 - ((M : ℚ) + ρ) * (2 : ℚ) ^ E =
          (((m0 : ℚ) - q) * P - (r + ρ)) * (2 : ℚ) ^ E := by
        rw [hz, hMq]; ring
      rw [hfac, abs_mul, abs_of_pos hS, hz]
      calc |((m0 : ℚ) - q) * P - (r + ρ)| * (2 : ℚ) ^ E
          ≤ (P : ℚ) / 2 * (2 : ℚ) ^ E := mul_le_mul_of_nonneg_right hkey hS.le
        _ = (P : ℚ) * (2 : ℚ) ^ E / 2 := by ring
  have h52 : ((2 : ℚ) ^ 52) ≤ (m0 : ℚ) := by exact_mod_cast hm052
  calc |(m0 : ℚ) * (2 : ℚ) ^ e0 - ((M : ℚ) + ρ) * (2 : ℚ) ^ E|
      ≤ (2 : ℚ) ^ e0 / 2 := hB
    _ = (2 : ℚ) ^ 52 * (2 : ℚ) ^ e0 / 2 ^ 53 := by ring
    _ ≤ (m0 : ℚ) * (2 : ℚ) ^ e0 / 2 ^ 53 := by
        apply div_le_div_of_nonneg_right _ (by positivity)
        exact mul_le_mul_of_nonneg_right h52 hT.le

/-- In binary64 arithmetic, when neither the quotient nor the product leaves the range
of normal numbers, `divide(a, b) * b` is within `2^-51 * |a|` of `a`. -/
theorem divide_mul_binary64 (s t : Bool) (m n : Nat) (e f : Int)
    (sq sp : Bool) (mq mp : Nat) (eq ep : Int)
    (hn0 : 0 < n) (hn : n < 2 ^ 53)
    (hq : Calculator.divide (Binary64.fin s m e) (Binary64.fin t n f) =
      .ok (Binary64.fin sq mq eq))
    (hqn : 2 ^ 52 ≤ mq)
    (hp : CDouble.mul (Binary64.fin sq mq eq) (Binary64.fin t n f) = Binary64.fin sp mp ep)
    (hpn : 2 ^ 52 ≤ mp) :
    |Binary64.toRat (.fin sp mp ep) - Binary64.toRat (.fin s m e)| ≤
      |Binary64.toRat (.fin s m e)| / 2 ^ 51 := by
  have hn0' : n ≠ 0 := by omega
  -- the quotient
  have hdiv : Binary64.div (.fin s m e) (.fin t n f) = .fin sq mq eq := by
    unfold Calculator.divide at hq
    split_ifs at hq with hz
    exact Except.ok.inj hq
  simp only [Binary64.div, if_neg hn0'] at hdiv
  have hm0 : m ≠ 0 := by
    intro h0
    rw [h0] at hdiv
    simp [Binary64.round] at hdiv
    omega
  have hMbig : 2 ^ 57 ≤ m * 2 ^ 110 / n := by
    rw [Nat.le_div_iff_mul_le (by omega)]
    have : 1 ≤ m := by omega
    calc 2 ^ 57 * n ≤ 2 ^ 57 * 2 ^ 53 := Nat.mul_le_mul_left _ (by omega)
      _ = 1 * 2 ^ 110 := by norm_num
      _ ≤ m * 2 ^ 110 := Nat.mul_le_mul_right _ this
  have hnq : (0 : ℚ) < (n : ℚ) := by exact_mod_cast hn0
  have hrem : m * 2 ^ 110 % n < n := Nat.mod_lt _ hn0
  have hremq : ((m * 2 ^ 110 % n : Nat) : ℚ) < n := by exact_mod_cast hrem
  obtain ⟨hsq, herr1⟩ := round_error (xor s t) (m * 2 ^ 110 / n) (e - f - 110)
    (decide (m * 2 ^ 110 % n ≠ 0)) (((m * 2 ^ 110 % n : Nat) : ℚ) / n)
    (by omega) (by positivity) (by rw [div_lt_one hnq]; exact hremq)
    (by
      rw [decide_eq_true_eq, Ne, Ne, div_eq_zero_iff]
      constructor
      · intro h hc
        rcases hc with hc | hc
        · exact h (by exact_mod_cast hc)
        · exact hn0' (by exact_mod_cast hc)
      · intro h hc
        exact h (Or.inl (by exact_mod_cast hc)))
    (by intro _; omega) sq mq eq hdiv hqn
  -- the product
  have hmul : Binary64.mul (.fin sq mq eq) (.fin t n f) = .fin sp mp ep := hp
  simp only [Binary64.mul] at hmul
  obtain ⟨hsp, herr2⟩ := round_error (xor sq t) (mq * n) (eq + f) false 0
    (Nat.mul_ne_zero (by omega) hn0') le_rfl (by norm_num) (by simp) (by simp)
    sp mp ep hmul hpn
  have h2f : (0 : ℚ) < (2 : ℚ) ^ f := zpow_pos (by norm_num) _
  have h2e : (0 : ℚ) < (2 : ℚ) ^ e := zpow_pos (by norm_num) _
  have h2q : (0 : ℚ) < (2 : ℚ) ^ eq := zpow_pos (by norm_num) _
  have h2p : (0 : ℚ) < (2 : ℚ) ^ ep := zpow_pos (by norm_num) _
  have hB : (0 : ℚ) < (n : ℚ) * (2 : ℚ) ^ f := mul_pos hnq h2f
  have hA : (0 : ℚ) ≤ (m : ℚ) * (2 : ℚ) ^ e := by positivity
  have hQ : (0 : ℚ) ≤ (mq : ℚ) * (2 : ℚ) ^ eq := by positivity
  have hP : (0 : ℚ) ≤ (mp : ℚ) * (2 : ℚ) ^ ep := by positivity
  -- the exact quotient and the exact product
  have hdm : ((m * 2 ^ 110 / n : Nat) : ℚ) * n + ((m * 2 ^ 110 % n : Nat) : ℚ) =
      (m : ℚ) * 2 ^ 110 := by
    have := Nat.div_add_mod (m * 2 ^ 110) n
    have hc : ((n * (m * 2 ^ 110 / n) + m * 2 ^ 110 % n : Nat) : ℚ) = ((m * 2 ^ 110 : Nat) : ℚ) := by
      rw [this]
    push_cast at hc ⊢
    linarith
  have hV1 : (((m * 2 ^ 110 / n : Nat) : ℚ) + ((m * 2 ^ 110 % n : Nat) : ℚ) / n) *
      (2 : ℚ) ^ (e - f - 110) = (m : ℚ) * (2 : ℚ) ^ e / ((n : ℚ) * (2 : ℚ) ^ f) := by
    rw [zpow_sub₀ (by norm_num : (2 : ℚ) ≠ 0), zpow_sub₀ (by norm_num : (2 : ℚ) ≠ 0)]
    have h110 : (2 : ℚ) ^ (110 : ℤ) = 2 ^ 110 := by norm_cast
    have hsum : ((m * 2 ^ 110 / n : Nat) : ℚ) + ((m * 2 ^ 110 % n : Nat) : ℚ) / n =
        (m : ℚ) * 2 ^ 110 / n := by
      rw [← hdm]
      field_simp
    rw [h110, hsum]
    field_simp
    ring
  have hV2 : (((mq * n : Nat) : ℚ) + 0) * (2 : ℚ) ^ (eq + f) =
      (mq : ℚ) * (2 : ℚ) ^ eq * ((n : ℚ) * (2 : ℚ) ^ f) := by
    rw [zpow_add₀ (by norm_num : (2 : ℚ) ≠ 0)]
    push_cast
    ring
  rw [hV1] at herr1
  rw [hV2] at herr2
  have herr1' : |(mq : ℚ) * (2 : ℚ) ^ eq * ((n : ℚ) * (2 : ℚ) ^ f) - (m : ℚ) * (2 : ℚ) ^ e| ≤
      (mq : ℚ) * (2 : ℚ) ^ eq * ((n : ℚ) * (2 : ℚ) ^ f) / 2 ^ 53 := by
    have e1 : (mq : ℚ) * (2 : ℚ) ^ eq * ((n : ℚ) * (2 : ℚ) ^ f) - (m : ℚ) * (2 : ℚ) ^ e =
        ((mq : ℚ) * (2 : ℚ) ^ eq - (m : ℚ) * (2 : ℚ) ^ e / ((n : ℚ) * (2 : ℚ) ^ f)) *
          ((n : ℚ) * (2 : ℚ) ^ f) := by
      field_simp
    rw [e1, abs_mul, abs_of_pos hB]
    calc |(mq : ℚ) * (2 : ℚ) ^ eq - (m : ℚ) * (2 : ℚ) ^ e / ((n : ℚ) * (2 : ℚ) ^ f)| *
          ((n : ℚ) * (2 : ℚ) ^ f)
        ≤ (mq : ℚ) * (2 : ℚ) ^ eq / 2 ^ 53 * ((n : ℚ) * (2 : ℚ) ^ f) :=
          mul_le_mul_of_nonneg_right herr1 hB.le
      _ = (mq : ℚ) * (2 : ℚ) ^ eq * ((n : ℚ) * (2 : ℚ) ^ f) / 2 ^ 53 := by ring
  -- signs
  have hsign : sp = s := by
    rw [hsp, hsq]; cases s <;> cases t <;> rfl
  have hval : Binary64.toRat (.fin sp mp ep) - Binary64.toRat (.fin s m e) =
      (if s = true then (-1 : ℚ) else 1) * ((mp : ℚ) * (2 : ℚ) ^ ep - (m : ℚ) * (2 : ℚ) ^ e) := by
    rw [hsign]; simp only [Binary64.toRat]; ring
  have habs : |Binary64.toRat (.fin s m e)| = (m : ℚ) * (2 : ℚ) ^ e := by
    simp only [Binary64.toRat]
    cases s
    · simp [abs_of_nonneg hA]
    · simp [abs_of_nonneg hA]
  have hone : |(if s = true then (-1 : ℚ) else 1)| = 1 := by
    cases s <;> simp
  rw [hval, habs, abs_mul, hone, one_mul]
  generalize (mq : ℚ) * (2 : ℚ) ^ eq * ((n : ℚ) * (2 : ℚ) ^ f) = W at herr1' herr2
  generalize (mp : ℚ) * (2 : ℚ) ^ ep = Pv at herr2 hP ⊢
  generalize (m : ℚ) * (2 : ℚ) ^ e = A at herr1' hA ⊢
  rw [abs_le] at herr1' herr2 ⊢
  norm_num at herr1' herr2 ⊢
  constructor <;> linarith

/-- C15, amended: with doubles read as exact rationals, `divide(a, b) * b` is exactly `a`
for every `a` and every `b != 0`; in binary64 arithmetic, for finite `a` and finite
`b != 0` whose quotient `divide(a, b)` and product `divide(a, b) * b` are both normal
numbers, the product is within `2^-51 * |a|` of `a`; for example `1.0 / 49.0 * 49.0` is
`1 - 2^-53`. -/
theorem divide_mul_roundtrip :
    (∀ a b : ℚ, b ≠ 0 → ∃ q, Calculator.divide a b = .ok q ∧ CDouble.mul q b = a) ∧
    (∀ (s t : Bool) (m n : Nat) (e f : Int) (sq sp : Bool) (mq mp : Nat) (eq ep : Int),
      0 < n → n < 2 ^ 53 →
      Calculator.divide (Binary64.fin s m e) (Binary64.fin t n f) =
        .ok (Binary64.fin sq mq eq) →
      2 ^ 52 ≤ mq →
      CDouble.mul (Binary64.fin sq mq eq) (Binary64.fin t n f) = Binary64.fin sp mp ep →
      2 ^ 52 ≤ mp →
      |Binary64.toRat (.fin sp mp ep) - Binary64.toRat (.fin s m e)| ≤
        |Binary64.toRat (.fin s m e)| / 2 ^ 51) ∧
    Calculator.divide (Binary64.fin false 4503599627370496 (-52))
        (Binary64.fin false 6896136929411072 (-47)) =
      .ok (Binary64.fin false 5882252574524729 (-58)) ∧
    CDouble.mul (Binary64.fin false 5882252574524729 (-58))
        (Binary64.fin false 6896136929411072 (-47)) =
      Binary64.fin false 9007199254740991 (-53) := by
  refine ⟨?_, ?_, by decide!, by decide!⟩
  · intro a b hb
    refine ⟨a / b, ?_, ?_⟩
    · unfold Calculator.divide
      have : CDouble.eq b (CDouble.zero : ℚ) = false := by
        simp [CDouble.eq, CDouble.zero, hb]
      rw [this]
      rfl
    · show a / b * b = a
      field_simp
  · intro s t m n e f sq sp mq mp eq ep hn0 hn hq hqn hp hpn
    exact divide_mul_binary64 s t m n e f sq sp mq mp eq ep hn0 hn hq hqn hp hpn

theorem divide_mul_roundtrip_witness :
    |Binary64.toRat (.fin false 9007199254740991 (-53)) -
        Binary64.toRat (.fin false 4503599627370496 (-52))| ≤
      |Binary64.toRat (.fin false 4503599627370496 (-52))| / 2 ^ 51 :=
  divide_mul_roundtrip.2.1 false false 4503599627370496 6896136929411072 (-52) (-47)
    false false 5882252574524729 9007199254740991 (-58) (-53)
    (by decide) (by decide) (by decide!) (by decide) (by decide!) (by decide)
